import Mathlib

/-!
Verification of the Resume_Tailor text-processing core.

Strings are modelled as lists of characters (`Str`).  The Python regular
expressions of `bullet_utils.py` and `llm_utils.py` are embedded by direct
translation of their matching semantics:

* `(?mi)(HEADER)(?P<body>.*?)(?=\n[A-Z][A-Z ]+\n|\Z)` — the section pattern of
  `extract_section` / `replace_section`.  Without a DOTALL flag `.` never
  matches a newline, so the lazy body group is confined to a single line; the
  `(?i)` flag makes the character class `[A-Z]` match lower-case letters as
  well.  `\s*\n` backtracks to each newline inside the whitespace run, longest
  first.  `re.sub` rewrites every non-overlapping match in a left-to-right
  scan, resuming after the end of each match.
* `^[\t ]*(?:[-\*•])\s+.*` — the bullet-line pattern, used with
  `re.findall(..., re.MULTILINE)` in `extract_bullets`, with `re.match` on
  single lines in `replace_bullets`, and (with two groups) as the marker
  splitter of `align_bullets_to_job`.

Character classes follow CPython: `\s` (equal to `str.isspace`),
`str.splitlines` line breaks, and an ASCII model of the case-insensitive
letter class (extended with the two Unicode case-folding letters U+212A
and U+017F that `(?i)[A-Z]` also accepts).

The external language model of `llm_utils.py` is a parameter
`llm : Str → Except ε Str`; `Except.error` models the call raising.
Recursions that are not structural use fuel bounded by the text length (each
scan step consumes at least one character, so the bound is never reached).
-/

abbrev Str := List Char

/-- Python whitespace (`\s` in a str pattern, identical to `str.isspace`). -/
def isSpace (c : Char) : Bool :=
  c == ' ' || c == '\t' || c == '\n' || c == '\r' || c == '\x0b' || c == '\x0c' ||
  c == '\x1c' || c == '\x1d' || c == '\x1e' || c == '\x1f' || c == '\x85' || c == '\xa0' ||
  c == ' ' || (decide (' ' ≤ c) && decide (c ≤ ' ')) || c == ' ' ||
  c == ' ' || c == ' ' || c == ' ' || c == '　'

/-- Line terminators recognised by Python `str.splitlines`. -/
def isLineBreak (c : Char) : Bool :=
  c == '\n' || c == '\r' || c == '\x0b' || c == '\x0c' || c == '\x1c' || c == '\x1d' ||
  c == '\x1e' || c == '\x85' || c == ' ' || c == ' '

/-- The class `[\t ]` preceding a bullet marker. -/
def isIndentChar (c : Char) : Bool :=
  c == '\t' || c == ' '

/-- The bullet marker class `[-\*•]`. -/
def isMarkerChar (c : Char) : Bool :=
  c == '-' || c == '*' || c == '•'

/-- The class `[A-Z]` under `(?i)`: ASCII letters of either case, plus the two
Unicode letters that case-fold into `a`–`z`. -/
def isAlphaI (c : Char) : Bool :=
  (decide ('A' ≤ c) && decide (c ≤ 'Z')) || (decide ('a' ≤ c) && decide (c ≤ 'z')) ||
  c == 'K' || c == 'ſ'

/-- The class `[A-Z ]` under `(?i)`. -/
def isAlphaSpace (c : Char) : Bool :=
  isAlphaI c || c == ' '

/-- Python `str.strip()`: drop whitespace from both ends. -/
def pyStrip (u : Str) : Str :=
  ((u.dropWhile isSpace).reverse.dropWhile isSpace).reverse

/-- Case-insensitive literal match of `name` against a prefix of `u`
(the `re.escape(section_name)` part of the section pattern under `(?i)`;
ASCII case folding). -/
def ciStarts : Str → Str → Bool
  | [], _ => true
  | _ :: _, [] => false
  | a :: n, b :: u => (a.toLower == b.toLower) && ciStarts n u

/-- The lookahead `(?=\n[A-Z][A-Z ]+\n|\Z)` tested at the current position:
either end of input, or a newline followed by a line made of one letter, then
at least one letter or space, then a newline. -/
def lookaheadOk (w : Str) : Bool :=
  match w with
  | [] => true
  | '\n' :: c :: t2 =>
    isAlphaI c && !(t2.takeWhile isAlphaSpace).isEmpty &&
      ((t2.dropWhile isAlphaSpace).head? == some '\n')
  | _ => false

/-- The lazy body group `(?P<body>.*?)` followed by the lookahead: the least
number of non-newline characters after which `lookaheadOk` holds, if any. -/
def tryBody : Str → Option Nat
  | [] => some 0
  | c :: t =>
    if lookaheadOk (c :: t) then some 0
    else if c = '\n' then none
    else (tryBody t).map (· + 1)

/-- Candidate lengths for the greedy, backtracking `\s*` of the header: the
positions of newline characters inside the maximal whitespace run, longest
candidate first. -/
def nlCandidates (v : Str) : List Nat :=
  ((List.range (v.takeWhile isSpace).length).filter (fun k => v[k]? == some '\n')).reverse

/-- Match `\s*\n` then body and lookahead, starting right after the section
name.  Returns (length of `\s*\n`, length of the body). -/
def matchHeaderBody (v : Str) : Option (Nat × Nat) :=
  (nlCandidates v).findSome? (fun k => (tryBody (v.drop (k + 1))).map (fun L => (k + 1, L)))

/-- Match the whole section pattern anchored at the start of `u`.
Returns (length of the header group, length of the body group). -/
def matchAt (name u : Str) : Option (Nat × Nat) :=
  if ciStarts name u then
    (matchHeaderBody (u.drop name.length)).map (fun hb => (name.length + hb.1, hb.2))
  else none

/-- Leftmost match of the section pattern (`re.search`):
(start index, header length, body length). -/
def searchFrom (name : Str) (u : Str) : Option (Nat × Nat × Nat) :=
  match u with
  | [] =>
    match matchAt name [] with
    | some (hl, bl) => some (0, hl, bl)
    | none => none
  | c :: t =>
    match matchAt name (c :: t) with
    | some (hl, bl) => some (0, hl, bl)
    | none => (searchFrom name t).map (fun r => (r.1 + 1, r.2))

/-- `extract_section` of `bullet_utils.py`: the body group of the first match,
or the empty string. -/
def extract_section (resume : Str) (section_name : Str) : Str :=
  match searchFrom section_name resume with
  | some (i, hl, bl) => (resume.drop (i + hl)).take bl
  | none => []

/-- The scan of `re.sub`: rewrite every non-overlapping match left to right,
each with its header followed by `new_body`, resuming after the match.  Fuel
is bounded by the text length: every match consumes at least the header's
final newline, so the zero-fuel branch is never reached. -/
def reSubAux (name new_body : Str) : Nat → Str → Str
  | 0, u => u
  | fuel + 1, u =>
    match searchFrom name u with
    | none => u
    | some (i, hl, bl) =>
      u.take (i + hl) ++ new_body ++ reSubAux name new_body fuel (u.drop (i + hl + bl))

/-- `replace_section` of `bullet_utils.py`. -/
def replace_section (resume : Str) (section_name : Str) (new_body : Str) : Str :=
  reSubAux section_name new_body resume.length resume

/-- Match the bullet pattern `[\t ]*[-\*•]\s+.*` anchored at the start of
`u`: indentation, one marker glyph, at least one whitespace character (which
may include newlines), then the rest of the line.  Returns the matched text
and the remainder. -/
def bulletMatch (u : Str) : Option (Str × Str) :=
  let ind := u.takeWhile isIndentChar
  match u.dropWhile isIndentChar with
  | c :: t =>
    if isMarkerChar c then
      let ws := t.takeWhile isSpace
      if ws.isEmpty then none
      else
        let afterWs := t.dropWhile isSpace
        some (ind ++ c :: (ws ++ afterWs.takeWhile (fun d => d ≠ '\n')),
          afterWs.dropWhile (fun d => d ≠ '\n'))
    else none
  | [] => none

/-- The scan of `re.findall(..., re.MULTILINE)` for the bullet pattern:
`^` matches at the start of the text and right after each newline; matches are
non-overlapping and the scan resumes after each one.  Fuel is bounded by the
text length (every step consumes at least one character). -/
def scanBulletsAux : Nat → Str → Bool → List Str
  | 0, _, _ => []
  | _ + 1, [], _ => []
  | fuel + 1, c :: t, atLineStart =>
    if atLineStart then
      match bulletMatch (c :: t) with
      | some (m, rest) => m :: scanBulletsAux fuel rest (m.getLast? == some '\n')
      | none => scanBulletsAux fuel t (c == '\n')
    else scanBulletsAux fuel t (c == '\n')

/-- `extract_bullets` of `bullet_utils.py`. -/
def extract_bullets (section_text : Str) : List Str :=
  scanBulletsAux section_text.length section_text true

/-- The per-line test `re.match(bullet pattern, line)` of `replace_bullets`. -/
def isBulletLine (line : Str) : Bool :=
  match line.dropWhile isIndentChar with
  | c :: t => isMarkerChar c && !(t.takeWhile isSpace).isEmpty
  | [] => false

/-- Prepend a character to the first line of a line list (used to build
`splitlines` results front to back). -/
def consHead (c : Char) : List Str → List Str
  | [] => [[c]]
  | l :: ls => (c :: l) :: ls

/-- Python `str.splitlines`: split at every line terminator, treating the pair
carriage return + newline as a single terminator; a trailing terminator does
not open a new line. -/
def splitlines : Str → List Str
  | [] => []
  | [c] => if isLineBreak c then [[]] else [[c]]
  | c :: d :: t =>
    if isLineBreak c then
      if c = '\r' ∧ d = '\n' then [] :: splitlines t
      else [] :: splitlines (d :: t)
    else consHead c (splitlines (d :: t))

/-- Python `"\n".join`. -/
def joinNL : List Str → Str
  | [] => []
  | [l] => l
  | l :: ls => l ++ '\n' :: joinNL ls

/-- The line loop of `replace_bullets`: each bullet line consumes the next
unused replacement, other lines pass through, and leftover replacements are
appended at the end (the trailing while loop). -/
def spliceLines : List Str → List Str → List Str
  | [], rs => rs
  | l :: ls, rs =>
    if isBulletLine l then
      match rs with
      | r :: rs2 => r :: spliceLines ls rs2
      | [] => l :: spliceLines ls []
    else l :: spliceLines ls rs

/-- The `out_lines` list built by `replace_bullets` before joining. -/
def replaceBulletLines (section_text : Str) (new_bullets : List Str) : List Str :=
  spliceLines (splitlines section_text) new_bullets

/-- `replace_bullets` of `bullet_utils.py`. -/
def replace_bullets (section_text : Str) (new_bullets : List Str) : Str :=
  joinNL (replaceBulletLines section_text new_bullets)

/-- The marker splitter `^([\t ]*(?:[-\*•])\s+)(.*)` of
`align_bullets_to_job`: group 1 is indentation + glyph + the greedy whitespace
run, group 2 the rest of the line. -/
def bulletSplit (b : Str) : Option (Str × Str) :=
  let ind := b.takeWhile isIndentChar
  match b.dropWhile isIndentChar with
  | c :: t =>
    if isMarkerChar c then
      let ws := t.takeWhile isSpace
      if ws.isEmpty then none
      else some (ind ++ c :: ws, (t.dropWhile isSpace).takeWhile (fun d => d ≠ '\n'))
    else none
  | [] => none

/-- Marker and core of one bullet as computed in `align_bullets_to_job`:
the split groups (core stripped), or the default marker with the whole line
stripped when the pattern does not match. -/
def splitMarker (b : Str) : Str × Str :=
  match bulletSplit b with
  | some (pre, core) => (pre, pyStrip core)
  | none => ('-' :: ' ' :: [], pyStrip b)

/-- First fragment of the prompt template of `llm_utils.py`. -/
def promptPart1 : Str :=
  ("You are a resume‐tailoring assistant. Given a job description and one of the applicant’s bullet points,\nrewrite the bullet so that it aligns more directly with the job description’s language and requirements,\nwithout inventing any new experience or changing the core meaning. Preserve the level of seniority and\nresponsibilities exactly as written; only adjust phrasing and keywords.\n\nJob Description:\n").toList

/-- Fragment of the template between the two substituted variables. -/
def promptPart2 : Str :=
  ("\n\nOriginal Bullet Point:\n").toList

/-- Final fragment of the template. -/
def promptPart3 : Str :=
  ("\n\nRewritten Bullet Point (do not add new details):").toList

/-- `prompt_template.format(job_description=…, bullet=…)`. -/
def promptOf (job_desc bullet : Str) : Str :=
  promptPart1 ++ job_desc ++ promptPart2 ++ bullet ++ promptPart3

/-- The label echo stripped by `align_bullet`. -/
def echoLabel : Str :=
  ("Rewritten Bullet Point:").toList

/-- `re.sub(r"(?i)^Rewritten Bullet Point:\s*", "", u)`: without a MULTILINE
flag the anchor only matches at the start, so at most one replacement. -/
def stripLabel (u : Str) : Str :=
  if ciStarts echoLabel u then (u.drop echoLabel.length).dropWhile isSpace else u

/-- `align_bullet` of `llm_utils.py`; the external service is the parameter
`llm` and `Except.error` models the call raising. -/
def align_bullet (llm : Str → Except ε Str) (job_desc bullet : Str) : Except ε Str :=
  match llm (promptOf job_desc bullet) with
  | .error e => .error e
  | .ok r => .ok (stripLabel (pyStrip r))

/-- `align_bullets_to_job` of `llm_utils.py`: split each bullet into marker
and core, rewrite the core, and re-attach the marker; a raising call aborts
the remaining bullets, as in the Python loop. -/
def align_bullets_to_job (llm : Str → Except ε Str) (job_desc : Str) :
    List Str → Except ε (List Str)
  | [] => .ok []
  | b :: bs =>
    match align_bullet llm job_desc (splitMarker b).2 with
    | .error e => .error e
    | .ok new_core =>
      match align_bullets_to_job llm job_desc bs with
      | .error e => .error e
      | .ok rest => .ok (((splitMarker b).1 ++ new_core) :: rest)

/-- One iteration of the loop of `tailor_resume_file`, with the rewriting
stage abstracted as a function on the bullet list. -/
def sectionPass (rewrite : Str → List Str → List Str) (job_description : Str)
    (tailored : Str) (section_name : Str) : Str :=
  let original_section_body := extract_section tailored section_name
  if (pyStrip original_section_body).isEmpty then tailored
  else
    let old_bullets := extract_bullets original_section_body
    if old_bullets.isEmpty then tailored
    else
      let new_bullets := rewrite job_description old_bullets
      let new_section_body := replace_bullets original_section_body new_bullets
      replace_section tailored section_name new_section_body

/-- The fixed section list of `tailor_resume_file`. -/
def sectionNames : List Str :=
  [("Work Experience").toList, ("Projects").toList]

/-- The text-level pipeline of `tailor_resume_file` (file loading excluded):
fold the per-section pass over the fixed section list. -/
def tailorText (rewrite : Str → List Str → List Str)
    (resume_text job_description : Str) : Str :=
  sectionNames.foldl (fun t n => sectionPass rewrite job_description t n) resume_text

/-! ### Lemmas about the line loop of `replace_bullets` -/

lemma spliceLines_nil_rs (ls : List Str) : spliceLines ls [] = ls := by
  induction ls with
  | nil => rfl
  | cons l ls ih => cases hb : isBulletLine l <;> simp [spliceLines, hb, ih]

lemma spliceLines_nonbullet (ls rs : List Str) (j : Nat) (l : Str)
    (hj : ls[j]? = some l) (hb : isBulletLine l = false) :
    (spliceLines ls rs)[j]? = some l := by
  induction ls generalizing rs j with
  | nil => simp at hj
  | cons a ls ih =>
    cases j with
    | zero =>
      simp only [List.getElem?_cons_zero, Option.some.injEq] at hj
      subst hj
      simp [spliceLines, hb]
    | succ j =>
      simp only [List.getElem?_cons_succ] at hj
      cases hba : isBulletLine a with
      | false => simpa [spliceLines, hba] using ih rs j hj
      | true =>
        cases rs with
        | nil => simpa [spliceLines, hba] using ih [] j hj
        | cons r rs2 => simpa [spliceLines, hba] using ih rs2 j hj

lemma countP_take_lt (p : Str → Bool) (ls : List Str) (j : Nat) (l : Str)
    (hj : ls[j]? = some l) (hl : p l = true) :
    (ls.take j).countP p < ls.countP p := by
  induction ls generalizing j with
  | nil => simp at hj
  | cons a ls ih =>
    cases j with
    | zero =>
      simp only [List.getElem?_cons_zero, Option.some.injEq] at hj
      subst hj
      simp [List.countP_cons, hl]
    | succ j =>
      simp only [List.getElem?_cons_succ] at hj
      have := ih j hj
      simp only [List.take_succ_cons, List.countP_cons]
      omega

lemma spliceLines_bullet_hit (ls rs : List Str) (j : Nat) (l : Str)
    (hj : ls[j]? = some l) (hb : isBulletLine l = true)
    (hc : (ls.take j).countP isBulletLine < rs.length) :
    (spliceLines ls rs)[j]? = rs[(ls.take j).countP isBulletLine]? := by
  induction ls generalizing rs j with
  | nil => simp at hj
  | cons a ls ih =>
    cases j with
    | zero =>
      simp only [List.getElem?_cons_zero, Option.some.injEq] at hj
      subst hj
      cases rs with
      | nil => simp at hc
      | cons r rs2 => simp [spliceLines, hb]
    | succ j =>
      simp only [List.getElem?_cons_succ] at hj
      cases hba : isBulletLine a with
      | false =>
        simp only [List.take_succ_cons, List.countP_cons, hba] at hc ⊢
        simp only [Bool.false_eq_true, if_false, Nat.add_zero] at hc ⊢
        simpa [spliceLines, hba] using ih rs j hj hc
      | true =>
        cases rs with
        | nil => simp at hc
        | cons r rs2 =>
          simp only [List.take_succ_cons, List.countP_cons, hba, if_true,
            List.length_cons] at hc ⊢
          have hc2 : (ls.take j).countP isBulletLine < rs2.length := by omega
          simpa [spliceLines, hba] using ih rs2 j hj hc2

lemma spliceLines_bullet_miss (ls rs : List Str) (j : Nat) (l : Str)
    (hj : ls[j]? = some l) (hb : isBulletLine l = true)
    (hc : rs.length ≤ (ls.take j).countP isBulletLine) :
    (spliceLines ls rs)[j]? = some l := by
  induction ls generalizing rs j with
  | nil => simp at hj
  | cons a ls ih =>
    cases j with
    | zero =>
      simp only [List.getElem?_cons_zero, Option.some.injEq] at hj
      subst hj
      have hrs : rs = [] := by
        cases rs with
        | nil => rfl
        | cons r rs2 => simp at hc
      subst hrs
      simp [spliceLines, hb]
    | succ j =>
      simp only [List.getElem?_cons_succ] at hj
      cases hba : isBulletLine a with
      | false =>
        simp only [List.take_succ_cons, List.countP_cons, hba] at hc
        simp only [Bool.false_eq_true, if_false, Nat.add_zero] at hc
        simpa [spliceLines, hba] using ih rs j hj hc
      | true =>
        cases rs with
        | nil => simpa [spliceLines, hba] using ih [] j hj (by simp)
        | cons r rs2 =>
          simp only [List.take_succ_cons, List.countP_cons, hba, if_true,
            List.length_cons] at hc
          have hc2 : rs2.length ≤ (ls.take j).countP isBulletLine := by omega
          simpa [spliceLines, hba] using ih rs2 j hj hc2

lemma spliceLines_length_of_le (ls rs : List Str)
    (h : rs.length ≤ ls.countP isBulletLine) :
    (spliceLines ls rs).length = ls.length := by
  induction ls generalizing rs with
  | nil =>
    simp only [List.countP_nil, Nat.le_zero, List.length_eq_zero] at h
    subst h
    rfl
  | cons a ls ih =>
    cases hba : isBulletLine a with
    | false =>
      simp only [List.countP_cons, hba] at h
      simp only [Bool.false_eq_true, if_false, Nat.add_zero] at h
      simp [spliceLines, hba, ih rs h]
    | true =>
      cases rs with
      | nil => simp [spliceLines, hba, ih [] (by simp)]
      | cons r rs2 =>
        simp only [List.countP_cons, hba, if_true, List.length_cons] at h
        simp [spliceLines, hba, ih rs2 (by omega)]

lemma spliceLines_surplus (ls rs : List Str)
    (h : ls.countP isBulletLine ≤ rs.length) :
    spliceLines ls rs =
      spliceLines ls (rs.take (ls.countP isBulletLine)) ++
        rs.drop (ls.countP isBulletLine) := by
  induction ls generalizing rs with
  | nil => simp [spliceLines]
  | cons a ls ih =>
    cases hba : isBulletLine a with
    | false =>
      simp only [List.countP_cons, hba] at h ⊢
      simp only [Bool.false_eq_true, if_false, Nat.add_zero] at h ⊢
      simp [spliceLines, hba, ih rs h]
    | true =>
      simp only [List.countP_cons, hba, if_true] at h ⊢
      cases rs with
      | nil => simp at h
      | cons r rs2 =>
        simp only [List.length_cons] at h
        have h2 : ls.countP isBulletLine ≤ rs2.length := by omega
        simp [spliceLines, hba, List.take_succ_cons, List.drop_succ_cons, ih rs2 h2]

/-- Claim C5 — positional replacement with equal counts: when the replacement
list is exactly as long as the number of bullet lines of the body, the line
list built by `replace_bullets` (and joined into its result) has the same
length as the body's line list, keeps every non-bullet line unchanged at its
position, and carries the i-th replacement at the position of the i-th bullet
line. -/
theorem claim_C5 (body : Str) (rs : List Str)
    (h : rs.length = (splitlines body).countP isBulletLine) :
    replace_bullets body rs = joinNL (replaceBulletLines body rs) ∧
    (replaceBulletLines body rs).length = (splitlines body).length ∧
    (∀ (j : Nat) (l : Str), (splitlines body)[j]? = some l → isBulletLine l = false →
      (replaceBulletLines body rs)[j]? = some l) ∧
    (∀ (j : Nat) (l : Str), (splitlines body)[j]? = some l → isBulletLine l = true →
      (replaceBulletLines body rs)[j]? =
        rs[((splitlines body).take j).countP isBulletLine]?) := by
  refine ⟨rfl, spliceLines_length_of_le _ _ (le_of_eq h),
    fun j l hj hb => spliceLines_nonbullet _ _ _ _ hj hb,
    fun j l hj hb => ?_⟩
  have hlt := countP_take_lt isBulletLine (splitlines body) j l hj hb
  exact spliceLines_bullet_hit _ _ _ _ hj hb (by omega)

def c5body : Str := ("Intro\n- one a\n- two b\nOutro").toList

def c5new : List Str := [("- X y").toList, ("- Z w").toList]

theorem claim_C5_witness :
    (replaceBulletLines c5body c5new).length = (splitlines c5body).length ∧
    (replaceBulletLines c5body c5new)[0]? = some (("Intro").toList) ∧
    (replaceBulletLines c5body c5new)[1]? = c5new[0]? ∧
    (replaceBulletLines c5body c5new)[2]? = c5new[1]? := by
  have H := claim_C5 c5body c5new (by decide)
  exact ⟨H.2.1, H.2.2.1 0 (("Intro").toList) (by decide) (by decide),
    H.2.2.2 1 (("- one a").toList) (by decide) (by decide),
    H.2.2.2 2 (("- two b").toList) (by decide) (by decide)⟩

/-- Claim C6 — surplus handling: when the replacement list is longer than the
number of bullet lines, `replace_bullets` splices the first `n` replacements
positionally (bullet positions still receive the replacement of their index)
and appends the remaining ones, in order, after the body's lines. -/
theorem claim_C6 (body : Str) (rs : List Str)
    (h : (splitlines body).countP isBulletLine < rs.length) :
    replace_bullets body rs = joinNL (replaceBulletLines body rs) ∧
    replaceBulletLines body rs =
      spliceLines (splitlines body)
          (rs.take ((splitlines body).countP isBulletLine)) ++
        rs.drop ((splitlines body).countP isBulletLine) ∧
    (spliceLines (splitlines body)
        (rs.take ((splitlines body).countP isBulletLine))).length =
      (splitlines body).length ∧
    (∀ m : Nat, (replaceBulletLines body rs)[(splitlines body).length + m]? =
      rs[(splitlines body).countP isBulletLine + m]?) ∧
    (∀ (j : Nat) (l : Str), (splitlines body)[j]? = some l → isBulletLine l = true →
      (replaceBulletLines body rs)[j]? =
        rs[((splitlines body).take j).countP isBulletLine]?) := by
  have hsur := spliceLines_surplus (splitlines body) rs (le_of_lt h)
  have hlen : (spliceLines (splitlines body)
      (rs.take ((splitlines body).countP isBulletLine))).length =
      (splitlines body).length := by
    apply spliceLines_length_of_le
    rw [List.length_take]
    exact min_le_left _ _
  refine ⟨rfl, hsur, hlen, fun m => ?_, fun j l hj hb => ?_⟩
  · unfold replaceBulletLines
    rw [hsur, List.getElem?_append_right (by rw [hlen]; omega), hlen]
    rw [show (splitlines body).length + m - (splitlines body).length = m by omega]
    rw [List.getElem?_drop]
  · have hlt := countP_take_lt isBulletLine (splitlines body) j l hj hb
    exact spliceLines_bullet_hit _ _ _ _ hj hb (by omega)

def c6body : Str := ("- a b\nplain").toList

def c6new : List Str := [("- c d").toList, ("- e f").toList, ("- g h").toList]

theorem claim_C6_witness :
    (replaceBulletLines c6body c6new)[2]? = c6new[1]? ∧
    (replaceBulletLines c6body c6new)[3]? = c6new[2]? ∧
    (replaceBulletLines c6body c6new)[0]? = c6new[0]? := by
  have H := claim_C6 c6body c6new (by decide)
  exact ⟨H.2.2.2.1 0, H.2.2.2.1 1,
    H.2.2.2.2 0 (("- a b").toList) (by decide) (by decide)⟩

/-- Claim C7 — shortfall handling: when the replacement list is shorter than
the number of bullet lines, `replace_bullets` keeps the line count, replaces
the first `k` bullet lines positionally, and leaves the remaining bullet lines
(and all non-bullet lines) unchanged at their original positions. -/
theorem claim_C7 (body : Str) (rs : List Str)
    (h : rs.length < (splitlines body).countP isBulletLine) :
    replace_bullets body rs = joinNL (replaceBulletLines body rs) ∧
    (replaceBulletLines body rs).length = (splitlines body).length ∧
    (∀ (j : Nat) (l : Str), (splitlines body)[j]? = some l → isBulletLine l = false →
      (replaceBulletLines body rs)[j]? = some l) ∧
    (∀ (j : Nat) (l : Str), (splitlines body)[j]? = some l → isBulletLine l = true →
      ((((splitlines body).take j).countP isBulletLine < rs.length →
        (replaceBulletLines body rs)[j]? =
          rs[((splitlines body).take j).countP isBulletLine]?) ∧
       (rs.length ≤ ((splitlines body).take j).countP isBulletLine →
        (replaceBulletLines body rs)[j]? = some l))) := by
  refine ⟨rfl, spliceLines_length_of_le _ _ (le_of_lt h),
    fun j l hj hb => spliceLines_nonbullet _ _ _ _ hj hb,
    fun j l hj hb =>
    ⟨fun hlt => spliceLines_bullet_hit _ _ _ _ hj hb hlt,
     fun hge => spliceLines_bullet_miss _ _ _ _ hj hb hge⟩⟩

def c7body : Str := ("- a b\n- c d").toList

def c7new : List Str := [("- z z").toList]

theorem claim_C7_witness :
    (replaceBulletLines c7body c7new).length = (splitlines c7body).length ∧
    (replaceBulletLines c7body c7new)[0]? = c7new[0]? ∧
    (replaceBulletLines c7body c7new)[1]? = some (("- c d").toList) := by
  have H := claim_C7 c7body c7new (by decide)
  exact ⟨H.2.1,
    (H.2.2.2 0 (("- a b").toList) (by decide) (by decide)).1 (by decide),
    (H.2.2.2 1 (("- c d").toList) (by decide) (by decide)).2 (by decide)⟩

/-! ### Lemmas about `splitlines` and `joinNL` -/

/-- Every line-break character of `u` is a plain newline. -/
def onlyNL (u : Str) : Bool :=
  u.all (fun c => !isLineBreak c || c == '\n')

lemma consHead_ne_nil (c : Char) (S : List Str) : consHead c S ≠ [] := by
  cases S <;> simp [consHead]

lemma joinNL_consHead (c : Char) (S : List Str) :
    joinNL (consHead c S) = c :: joinNL S := by
  cases S with
  | nil => rfl
  | cons l ls => cases ls <;> rfl

lemma splitlines_one_break (c : Char) (hc : isLineBreak c = true) :
    splitlines [c] = [[]] := by
  simp only [splitlines]
  rw [if_pos hc]

lemma splitlines_one_nonbreak (c : Char) (hc : isLineBreak c = false) :
    splitlines [c] = [[c]] := by
  simp only [splitlines]
  rw [if_neg (by simp [hc])]

lemma splitlines_crlf (t : Str) : splitlines ('\r' :: '\n' :: t) = [] :: splitlines t := by
  simp only [splitlines]
  rw [if_pos (by decide), if_pos (by decide)]

lemma splitlines_break_cons (c d : Char) (t : Str) (hb : isLineBreak c = true)
    (hcr : ¬(c = '\r' ∧ d = '\n')) :
    splitlines (c :: d :: t) = [] :: splitlines (d :: t) := by
  simp only [splitlines]
  rw [if_pos hb, if_neg hcr]

lemma splitlines_nonbreak_cons (c d : Char) (t : Str) (hb : isLineBreak c = false) :
    splitlines (c :: d :: t) = consHead c (splitlines (d :: t)) := by
  simp only [splitlines]
  rw [if_neg (by simp [hb])]

lemma joinNL_cons2 (l s : Str) (ss : List Str) :
    joinNL (l :: s :: ss) = l ++ '\n' :: joinNL (s :: ss) := rfl

lemma splitlines_ne_nil (u : Str) (h : u ≠ []) : splitlines u ≠ [] := by
  induction u using splitlines.induct with
  | case1 => exact absurd rfl h
  | case2 c hc => rw [splitlines_one_break c hc]; simp
  | case3 c hc => rw [splitlines_one_nonbreak c (by simpa using hc)]; simp
  | case4 c d t hb hcr ih =>
    obtain ⟨rfl, rfl⟩ := hcr
    rw [splitlines_crlf]
    simp
  | case5 c d t hb hcr ih =>
    rw [splitlines_break_cons c d t hb hcr]
    simp
  | case6 c d t hb ih =>
    rw [splitlines_nonbreak_cons c d t (by simpa using hb)]
    exact consHead_ne_nil c (splitlines (d :: t))

lemma onlyNL_break_eq (c : Char) (t : Str) (h : onlyNL (c :: t) = true)
    (hb : isLineBreak c = true) : c = '\n' := by
  simp [onlyNL, List.all_cons, hb] at h
  exact h.1

lemma onlyNL_tail (c : Char) (t : Str) (h : onlyNL (c :: t) = true) :
    onlyNL t = true := by
  simp [onlyNL, List.all_cons] at h ⊢
  exact h.2

lemma replace_bullets_nil_rs (body : Str) :
    replace_bullets body [] = joinNL (splitlines body) := by
  unfold replace_bullets replaceBulletLines
  rw [spliceLines_nil_rs]

lemma getLast?_one (c : Char) : ([c] : Str).getLast? = some c := rfl

lemma joinNL_splitlines_len_le (u : Str) :
    (joinNL (splitlines u)).length ≤ u.length := by
  induction u using splitlines.induct with
  | case1 => simp [splitlines, joinNL]
  | case2 c hc => rw [splitlines_one_break c hc]; simp [joinNL]
  | case3 c hc => rw [splitlines_one_nonbreak c (by simpa using hc)]; simp [joinNL]
  | case4 c d t hb hcr ih =>
    obtain ⟨rfl, rfl⟩ := hcr
    rw [splitlines_crlf]
    rcases hS : splitlines t with _ | ⟨s, ss⟩
    · simp [joinNL]
    · rw [hS] at ih
      rw [joinNL_cons2]
      simp only [List.nil_append, List.length_cons] at ih ⊢
      omega
  | case5 c d t hb hcr ih =>
    rw [splitlines_break_cons c d t hb hcr]
    rcases hS : splitlines (d :: t) with _ | ⟨s, ss⟩
    · exact absurd hS (splitlines_ne_nil _ (by simp))
    · rw [hS] at ih
      rw [joinNL_cons2]
      simp only [List.nil_append, List.length_cons] at ih ⊢
      omega
  | case6 c d t hb ih =>
    rw [splitlines_nonbreak_cons c d t (by simpa using hb), joinNL_consHead]
    simp only [List.length_cons] at ih ⊢
    omega

lemma joinNL_splitlines_len_lt (u : Str) (h : u.getLast? = some '\n') :
    (joinNL (splitlines u)).length < u.length := by
  induction u using splitlines.induct with
  | case1 => simp at h
  | case2 c hc =>
    rw [getLast?_one, Option.some.injEq] at h
    subst h
    rw [splitlines_one_break _ (by decide)]
    simp [joinNL]
  | case3 c hc =>
    rw [getLast?_one, Option.some.injEq] at h
    subst h
    simp [isLineBreak] at hc
  | case4 c d t hb hcr ih =>
    obtain ⟨rfl, rfl⟩ := hcr
    rw [splitlines_crlf]
    rcases t with _ | ⟨e, t2⟩
    · simp [joinNL]
    · have h2 : (e :: t2).getLast? = some '\n' := by
        rw [List.getLast?_cons_cons, List.getLast?_cons_cons] at h
        exact h
      have hlt := ih h2
      rcases hS : splitlines (e :: t2) with _ | ⟨s, ss⟩
      · exact absurd hS (splitlines_ne_nil _ (by simp))
      · rw [hS] at hlt
        rw [joinNL_cons2]
        simp only [List.nil_append, List.length_cons] at hlt ⊢
        omega
  | case5 c d t hb hcr ih =>
    have h2 : (d :: t).getLast? = some '\n' := by
      rw [List.getLast?_cons_cons] at h
      exact h
    have hlt := ih h2
    rw [splitlines_break_cons c d t hb hcr]
    rcases hS : splitlines (d :: t) with _ | ⟨s, ss⟩
    · exact absurd hS (splitlines_ne_nil _ (by simp))
    · rw [hS] at hlt
      rw [joinNL_cons2]
      simp only [List.nil_append, List.length_cons] at hlt ⊢
      omega
  | case6 c d t hb ih =>
    have h2 : (d :: t).getLast? = some '\n' := by
      rw [List.getLast?_cons_cons] at h
      exact h
    have hlt := ih h2
    rw [splitlines_nonbreak_cons c d t (by simpa using hb), joinNL_consHead]
    simp only [List.length_cons] at hlt ⊢
    omega

lemma joinNL_splitlines_of_not_end (u : Str) (h1 : onlyNL u = true)
    (h2 : u.getLast? ≠ some '\n') : joinNL (splitlines u) = u := by
  induction u using splitlines.induct with
  | case1 => simp [splitlines, joinNL]
  | case2 c hc =>
    have hcn := onlyNL_break_eq c [] h1 hc
    subst hcn
    rw [getLast?_one] at h2
    exact absurd rfl h2
  | case3 c hc =>
    rw [splitlines_one_nonbreak c (by simpa using hc)]
    rfl
  | case4 c d t hb hcr ih =>
    have hcn := onlyNL_break_eq c (d :: t) h1 hb
    exact absurd (hcr.1.symm.trans hcn) (by decide)
  | case5 c d t hb hcr ih =>
    have hcn := onlyNL_break_eq c (d :: t) h1 hb
    subst hcn
    have h2t : (d :: t).getLast? ≠ some '\n' := by
      rw [List.getLast?_cons_cons] at h2
      exact h2
    have hrec := ih (onlyNL_tail _ _ h1) h2t
    rw [splitlines_break_cons _ d t hb hcr]
    rcases hS : splitlines (d :: t) with _ | ⟨s, ss⟩
    · exact absurd hS (splitlines_ne_nil _ (by simp))
    · rw [hS] at hrec
      rw [joinNL_cons2, hrec]
      simp
  | case6 c d t hb ih =>
    have h2t : (d :: t).getLast? ≠ some '\n' := by
      rw [List.getLast?_cons_cons] at h2
      exact h2
    have hrec := ih (onlyNL_tail _ _ h1) h2t
    rw [splitlines_nonbreak_cons c d t (by simpa using hb), joinNL_consHead, hrec]

lemma joinNL_splitlines_of_end (u : Str) (h1 : onlyNL u = true)
    (h2 : u.getLast? = some '\n') : joinNL (splitlines u) = u.dropLast := by
  induction u using splitlines.induct with
  | case1 => simp at h2
  | case2 c hc =>
    rw [getLast?_one, Option.some.injEq] at h2
    subst h2
    rw [splitlines_one_break _ (by decide)]
    rfl
  | case3 c hc =>
    rw [getLast?_one, Option.some.injEq] at h2
    subst h2
    simp [isLineBreak] at hc
  | case4 c d t hb hcr ih =>
    have hcn := onlyNL_break_eq c (d :: t) h1 hb
    exact absurd (hcr.1.symm.trans hcn) (by decide)
  | case5 c d t hb hcr ih =>
    have hcn := onlyNL_break_eq c (d :: t) h1 hb
    subst hcn
    have h2t : (d :: t).getLast? = some '\n' := by
      rw [List.getLast?_cons_cons] at h2
      exact h2
    have hrec := ih (onlyNL_tail _ _ h1) h2t
    rw [splitlines_break_cons _ d t hb hcr]
    rcases hS : splitlines (d :: t) with _ | ⟨s, ss⟩
    · exact absurd hS (splitlines_ne_nil _ (by simp))
    · rw [hS] at hrec
      rw [joinNL_cons2, hrec,
        show ('\n' :: d :: t).dropLast = '\n' :: (d :: t).dropLast from
          List.dropLast_cons_of_ne_nil (by simp)]
      simp
  | case6 c d t hb ih =>
    have h2t : (d :: t).getLast? = some '\n' := by
      rw [List.getLast?_cons_cons] at h2
      exact h2
    have hrec := ih (onlyNL_tail _ _ h1) h2t
    rw [splitlines_nonbreak_cons c d t (by simpa using hb), joinNL_consHead, hrec,
      show (c :: d :: t).dropLast = c :: (d :: t).dropLast from
        List.dropLast_cons_of_ne_nil (by simp)]

/-- Claim C10 — trailing line-break normalization by `replace_bullets`:
the output is the newline-join of the processed lines, so on a body whose
only line-break character is the newline, `replace_bullets body []` is the
identity when the body does not end with a newline; when the body does end
with a newline the final newline is dropped (the result is `body.dropLast`),
and in particular splicing is not the identity there even though no bullet
changes; the non-identity holds for every body ending with a newline. -/
theorem claim_C10 (body : Str) :
    (onlyNL body = true → body.getLast? ≠ some '\n' →
      replace_bullets body [] = body) ∧
    (body.getLast? = some '\n' →
      replace_bullets body [] ≠ body ∧
      (onlyNL body = true → replace_bullets body [] = body.dropLast)) := by
  refine ⟨fun h1 h2 => ?_, fun h2 => ⟨fun hEq => ?_, fun h1 => ?_⟩⟩
  · rw [replace_bullets_nil_rs]
    exact joinNL_splitlines_of_not_end body h1 h2
  · have hlt := joinNL_splitlines_len_lt body h2
    rw [replace_bullets_nil_rs] at hEq
    rw [hEq] at hlt
    omega
  · rw [replace_bullets_nil_rs]
    exact joinNL_splitlines_of_end body h1 h2

theorem claim_C10_witness :
    (replace_bullets (("- a b\nno change").toList) [] = ("- a b\nno change").toList) ∧
    replace_bullets (("- a b\n").toList) [] ≠ ("- a b\n").toList ∧
    replace_bullets (("- a b\n").toList) [] = ("- a b").toList :=
  ⟨(claim_C10 (("- a b\nno change").toList)).1 (by decide) (by decide),
   ((claim_C10 (("- a b\n").toList)).2 (by decide)).1,
   ((claim_C10 (("- a b\n").toList)).2 (by decide)).2 (by decide)⟩

/-! ### Lemmas about the rewriting adapter -/

lemma align_cons_ok {ε : Type} (llm : Str → Except ε Str) (jd b : Str) (bs out : List Str)
    (h : align_bullets_to_job llm jd (b :: bs) = Except.ok out) :
    ∃ nc rest, align_bullet llm jd (splitMarker b).2 = Except.ok nc ∧
      align_bullets_to_job llm jd bs = Except.ok rest ∧
      out = ((splitMarker b).1 ++ nc) :: rest := by
  cases ha : align_bullet llm jd (splitMarker b).2 with
  | error e =>
    simp only [align_bullets_to_job, ha] at h
    exact Except.noConfusion h
  | ok nc =>
    cases hr : align_bullets_to_job llm jd bs with
    | error e =>
      simp only [align_bullets_to_job, ha, hr] at h
      exact Except.noConfusion h
    | ok rest =>
      simp only [align_bullets_to_job, ha, hr, Except.ok.injEq] at h
      exact ⟨nc, rest, rfl, rfl, h.symm⟩

lemma align_ok_spec {ε : Type} (llm : Str → Except ε Str) (jd : Str) :
    ∀ bs out : List Str, align_bullets_to_job llm jd bs = Except.ok out →
      out.length = bs.length ∧
      ∀ (i : Nat) (b : Str), bs[i]? = some b →
        ∃ c, align_bullet llm jd (splitMarker b).2 = Except.ok c ∧
          out[i]? = some ((splitMarker b).1 ++ c) := by
  intro bs
  induction bs with
  | nil =>
    intro out h
    simp only [align_bullets_to_job, Except.ok.injEq] at h
    subst h
    exact ⟨rfl, fun i b hib => by simp at hib⟩
  | cons b0 t ih =>
    intro out h
    obtain ⟨nc, rest, ha, hr, rfl⟩ := align_cons_ok llm jd b0 t out h
    obtain ⟨hlen, hpos⟩ := ih rest hr
    refine ⟨by simp [hlen], fun i b hib => ?_⟩
    cases i with
    | zero =>
      simp only [List.getElem?_cons_zero, Option.some.injEq] at hib
      subst hib
      exact ⟨nc, ha, by simp⟩
    | succ i =>
      simp only [List.getElem?_cons_succ] at hib ⊢
      exact hpos i b hib

lemma bulletSplit_isSome_isBulletLine (b : Str) :
    (bulletSplit b).isSome = isBulletLine b := by
  simp only [bulletSplit, isBulletLine]
  cases hdw : b.dropWhile isIndentChar with
  | nil => rfl
  | cons c t =>
    cases hm : isMarkerChar c with
    | false => simp [hm]
    | true =>
      cases hw : (t.takeWhile isSpace).isEmpty with
      | false => simp [hm, hw]
      | true => simp [hm, hw]

lemma bulletMatch_isSome_isBulletLine (b : Str) :
    (bulletMatch b).isSome = isBulletLine b := by
  simp only [bulletMatch, isBulletLine]
  cases hdw : b.dropWhile isIndentChar with
  | nil => rfl
  | cons c t =>
    cases hm : isMarkerChar c with
    | false => simp [hm]
    | true =>
      cases hw : (t.takeWhile isSpace).isEmpty with
      | false => simp [hm, hw]
      | true => simp [hm, hw]

/-- The external service stub that always fails (models a raising call). -/
def failLlm : Str → Except Unit Str := fun _ => Except.error ()

/-- Claim C2 counterexample: with a failing service call, the adapter neither
returns normally nor yields the original bullet line — it returns the
propagated error, refuting the documented fallback. -/
theorem claim_C2_counterexample :
    align_bullets_to_job failLlm (("Backend role").toList) [("- Led a team").toList] =
      Except.error () ∧
    align_bullet failLlm (("Backend role").toList) (("Led a team").toList) =
      Except.error () ∧
    (Except.error () : Except Unit (List Str)) ≠ Except.ok [("- Led a team").toList] := by
  refine ⟨rfl, rfl, fun h => ?_⟩
  exact Except.noConfusion h

/-- Claim C2 (amended) — the adapter is not total: there is no exception
handling in `align_bullet` / `align_bullets_to_job`, so a failing service
call propagates out of both functions instead of falling back to the
original bullet line. -/
theorem claim_C2 {ε : Type} (llm : Str → Except ε Str) (jd b : Str) (tl : List Str) (e : ε)
    (h : llm (promptOf jd (splitMarker b).2) = Except.error e) :
    align_bullet llm jd (splitMarker b).2 = Except.error e ∧
    align_bullets_to_job llm jd (b :: tl) = Except.error e := by
  have h1 : align_bullet llm jd (splitMarker b).2 = Except.error e := by
    unfold align_bullet
    rw [h]
  refine ⟨h1, ?_⟩
  simp only [align_bullets_to_job, h1]

theorem claim_C2_witness :
    align_bullet failLlm (("Sales role").toList)
      ((splitMarker (("- Grew revenue").toList)).2) = Except.error () ∧
    align_bullets_to_job failLlm (("Sales role").toList) [("- Grew revenue").toList] =
      Except.error () :=
  claim_C2 failLlm (("Sales role").toList) (("- Grew revenue").toList) [] () rfl

/-- Claim C8 — marker preservation and default marker: on a successful run,
each output line begins with the marker of the corresponding input
bullet; the splitter detects a marker exactly when the extractor's bullet
rules do; and when no marker is detected the default marker is the two
characters hyphen and space. -/
theorem claim_C8 {ε : Type} (llm : Str → Except ε Str) (jd : Str) (bs out : List Str)
    (h : align_bullets_to_job llm jd bs = Except.ok out) :
    (∀ (i : Nat) (b : Str), bs[i]? = some b →
      ∃ core2, out[i]? = some ((splitMarker b).1 ++ core2)) ∧
    (∀ b : Str, (bulletSplit b).isSome = isBulletLine b) ∧
    (∀ b : Str, (bulletSplit b).isSome = (bulletMatch b).isSome) ∧
    (∀ b : Str, bulletSplit b = none → (splitMarker b).1 = '-' :: ' ' :: []) := by
  refine ⟨fun i b hib => ?_, fun b => bulletSplit_isSome_isBulletLine b,
    fun b => (bulletSplit_isSome_isBulletLine b).trans
      (bulletMatch_isSome_isBulletLine b).symm,
    fun b hb => by unfold splitMarker; rw [hb]⟩
  obtain ⟨c, _, hc⟩ := (align_ok_spec llm jd bs out h).2 i b hib
  exact ⟨c, hc⟩

/-- The external service stub returning a fixed successful rewrite. -/
def okLlm : Str → Except Unit Str := fun _ => Except.ok (("Managed five engineers").toList)

theorem claim_C8_witness :
    ∃ core2, ([("  * Managed five engineers").toList] : List Str)[0]? =
      some ((("  * ").toList) ++ core2) := by
  have H := claim_C8 okLlm (("team lead role").toList) [("  * Led a team of 5").toList]
    [("  * Managed five engineers").toList] (by rfl)
  exact H.1 0 (("  * Led a team of 5").toList) (by rfl)

/-- Claim C9 — the rewrite preserves bullet count and order: a successful run
returns exactly one output per input bullet, and the i-th output is the i-th
input's marker followed by the rewritten core of that same input. -/
theorem claim_C9 {ε : Type} (llm : Str → Except ε Str) (jd : Str) (bs out : List Str)
    (h : align_bullets_to_job llm jd bs = Except.ok out) :
    out.length = bs.length ∧
    ∀ (i : Nat) (b : Str), bs[i]? = some b →
      ∃ c, align_bullet llm jd (splitMarker b).2 = Except.ok c ∧
        out[i]? = some ((splitMarker b).1 ++ c) :=
  align_ok_spec llm jd bs out h

/-- The external service stub for the C9 witness. -/
def okLlm2 : Str → Except Unit Str := fun _ => Except.ok (("Shipped features").toList)

theorem claim_C9_witness :
    ([("- Shipped features").toList] : List Str).length =
      ([("- Wrote code").toList] : List Str).length ∧
    ∃ c, align_bullet okLlm2 (("dev role").toList)
        ((splitMarker (("- Wrote code").toList)).2) = Except.ok c ∧
      ([("- Shipped features").toList] : List Str)[0]? =
        some ((splitMarker (("- Wrote code").toList)).1 ++ c) := by
  have H := claim_C9 okLlm2 (("dev role").toList) [("- Wrote code").toList]
    [("- Shipped features").toList] (by rfl)
  exact ⟨H.1, H.2 0 (("- Wrote code").toList) (by rfl)⟩

/-! ### Lemmas about the section pattern and its scans -/

lemma findSome?_exists {α β : Type} (f : α → Option β) (l : List α) (b : β)
    (h : l.findSome? f = some b) : ∃ a ∈ l, f a = some b := by
  induction l with
  | nil => simp [List.findSome?] at h
  | cons a l ih =>
    cases hfa : f a with
    | some v =>
      rw [List.findSome?_cons, hfa] at h
      simp only [Option.some.injEq] at h
      subst h
      exact ⟨a, List.mem_cons_self a l, hfa⟩
    | none =>
      rw [List.findSome?_cons, hfa] at h
      obtain ⟨a2, ha2, hfa2⟩ := ih h
      exact ⟨a2, List.mem_cons_of_mem a ha2, hfa2⟩

lemma matchAt_body (name u : Str) (hl bl : Nat) (h : matchAt name u = some (hl, bl)) :
    tryBody (u.drop hl) = some bl := by
  unfold matchAt at h
  by_cases hci : ciStarts name u = true
  · rw [if_pos hci] at h
    rcases Option.map_eq_some'.mp h with ⟨⟨k1, L⟩, hmb, heq⟩
    simp only [Prod.mk.injEq] at heq
    obtain ⟨rfl, rfl⟩ := heq
    unfold matchHeaderBody at hmb
    obtain ⟨k, hkmem, hfk⟩ := findSome?_exists _ _ _ hmb
    rcases Option.map_eq_some'.mp hfk with ⟨L2, htb, heq2⟩
    simp only [Prod.mk.injEq] at heq2
    obtain ⟨rfl, rfl⟩ := heq2
    rw [List.drop_drop] at htb
    exact htb
  · rw [if_neg hci] at h
    exact absurd h (by simp)

lemma matchAt_nil (name : Str) : matchAt name [] = none := by
  unfold matchAt
  by_cases hci : ciStarts name [] = true
  · rw [if_pos hci]
    simp [matchHeaderBody, nlCandidates]
  · rw [if_neg hci]

lemma searchFrom_cons_some (name : Str) (c : Char) (t : Str) (hl bl : Nat)
    (hma : matchAt name (c :: t) = some (hl, bl)) :
    searchFrom name (c :: t) = some (0, hl, bl) := by
  show (match matchAt name (c :: t) with
    | some (hl, bl) => some (0, hl, bl)
    | none => (searchFrom name t).map (fun r => (r.1 + 1, r.2))) = some (0, hl, bl)
  rw [hma]

lemma searchFrom_cons_none (name : Str) (c : Char) (t : Str)
    (hma : matchAt name (c :: t) = none) :
    searchFrom name (c :: t) = (searchFrom name t).map (fun r => (r.1 + 1, r.2)) := by
  show (match matchAt name (c :: t) with
    | some (hl, bl) => some (0, hl, bl)
    | none => (searchFrom name t).map (fun r => (r.1 + 1, r.2))) =
    (searchFrom name t).map (fun r => (r.1 + 1, r.2))
  rw [hma]

lemma searchFrom_nil (name : Str) : searchFrom name [] = none := by
  show (match matchAt name [] with
    | some (hl, bl) => some (0, hl, bl)
    | none => none) = none
  rw [matchAt_nil]

lemma searchFrom_ne_nil (name u : Str) (r : Nat × Nat × Nat)
    (h : searchFrom name u = some r) : u ≠ [] := by
  intro he
  subst he
  rw [searchFrom_nil] at h
  exact Option.noConfusion h

lemma searchFrom_body (name u : Str) (i hl bl : Nat)
    (h : searchFrom name u = some (i, hl, bl)) :
    tryBody (u.drop (i + hl)) = some bl := by
  induction u generalizing i with
  | nil =>
    rw [searchFrom_nil] at h
    exact Option.noConfusion h
  | cons c t ih =>
    cases hma : matchAt name (c :: t) with
    | some p =>
      obtain ⟨hl2, bl2⟩ := p
      rw [searchFrom_cons_some name c t hl2 bl2 hma] at h
      simp only [Option.some.injEq, Prod.mk.injEq] at h
      obtain ⟨rfl, rfl, rfl⟩ := h
      simpa using matchAt_body name (c :: t) hl2 bl2 hma
    | none =>
      rw [searchFrom_cons_none name c t hma] at h
      rcases Option.map_eq_some'.mp h with ⟨⟨i2, hl2, bl2⟩, hsf, heq⟩
      simp only [Prod.mk.injEq] at heq
      obtain ⟨rfl, rfl, rfl⟩ := heq
      have hrec := ih i2 hsf
      rw [show i2 + 1 + hl2 = (i2 + hl2) + 1 by omega, List.drop_succ_cons]
      exact hrec

lemma tryBody_no_nl (w : Str) (L : Nat) (h : tryBody w = some L) :
    ∀ c ∈ w.take L, c ≠ '\n' := by
  induction w generalizing L with
  | nil =>
    simp only [tryBody, Option.some.injEq] at h
    subst h
    simp
  | cons c t ih =>
    unfold tryBody at h
    by_cases hla : lookaheadOk (c :: t) = true
    · rw [if_pos hla] at h
      simp only [Option.some.injEq] at h
      subst h
      simp
    · rw [if_neg hla] at h
      by_cases hnl : c = '\n'
      · rw [if_pos hnl] at h
        exact absurd h (by simp)
      · rw [if_neg hnl] at h
        rcases Option.map_eq_some'.mp h with ⟨L2, hL2, hplus⟩
        subst hplus
        rw [List.take_succ_cons]
        intro x hx
        rcases List.mem_cons.mp hx with rfl | hx2
        · exact hnl
        · exact ih L2 hL2 x hx2

lemma reSubAux_succ (name nb : Str) (fuel : Nat) (u : Str) :
    reSubAux name nb (fuel + 1) u =
      match searchFrom name u with
      | none => u
      | some (i, hl, bl) =>
        u.take (i + hl) ++ nb ++ reSubAux name nb fuel (u.drop (i + hl + bl)) := rfl

lemma reSubAux_none (name nb : Str) (fuel : Nat) (u : Str)
    (h : searchFrom name u = none) : reSubAux name nb fuel u = u := by
  cases fuel with
  | zero => rfl
  | succ f =>
    rw [reSubAux_succ, h]

lemma reSubAux_some (name nb : Str) (fuel : Nat) (u : Str) (i hl bl : Nat)
    (h : searchFrom name u = some (i, hl, bl)) :
    reSubAux name nb (fuel + 1) u =
      u.take (i + hl) ++ nb ++ reSubAux name nb fuel (u.drop (i + hl + bl)) := by
  rw [reSubAux_succ, h]

lemma mem_of_mem_dropWhile {p : Char → Bool} {u : Str} {a : Char}
    (h : a ∈ u.dropWhile p) : a ∈ u := by
  induction u with
  | nil => simp at h
  | cons b t ih =>
    rw [List.dropWhile_cons] at h
    by_cases hp : p b = true
    · rw [if_pos hp] at h
      exact List.mem_cons_of_mem b (ih h)
    · rw [if_neg hp] at h
      exact h

lemma bulletMatch_full (u : Str) (hnl : ∀ c ∈ u, c ≠ '\n') (m rest : Str)
    (h : bulletMatch u = some (m, rest)) : m = u ∧ rest = [] := by
  unfold bulletMatch at h
  cases hdw : u.dropWhile isIndentChar with
  | nil =>
    rw [hdw] at h
    exact absurd h (by simp)
  | cons c t =>
    rw [hdw] at h
    replace h : (if isMarkerChar c = true then
        (if (t.takeWhile isSpace).isEmpty = true then none
         else some (u.takeWhile isIndentChar ++
             c :: (t.takeWhile isSpace ++
               (t.dropWhile isSpace).takeWhile (fun d => d ≠ '\n')),
           (t.dropWhile isSpace).dropWhile (fun d => d ≠ '\n'))) else
        (none : Option (Str × Str))) = some (m, rest) := h
    by_cases hm : isMarkerChar c = true
    · rw [if_pos hm] at h
      by_cases hw : (t.takeWhile isSpace).isEmpty = true
      · rw [if_pos hw] at h
        exact absurd h (by simp)
      · rw [if_neg hw] at h
        simp only [Option.some.injEq, Prod.mk.injEq] at h
        obtain ⟨hm1, hr1⟩ := h
        have hsub : ∀ x ∈ t.dropWhile isSpace, x ≠ '\n' := by
          intro x hx
          apply hnl
          have hx2 : x ∈ t := mem_of_mem_dropWhile hx
          have hx3 : x ∈ u.dropWhile isIndentChar := by
            rw [hdw]
            exact List.mem_cons_of_mem _ hx2
          exact mem_of_mem_dropWhile hx3
        have htw : (t.dropWhile isSpace).takeWhile (fun d => d ≠ '\n') =
            t.dropWhile isSpace := by
          rw [List.takeWhile_eq_self_iff]
          intro x hx
          simpa using hsub x hx
        have hdwn : (t.dropWhile isSpace).dropWhile (fun d => d ≠ '\n') = [] := by
          rw [List.dropWhile_eq_nil_iff]
          intro x hx
          simpa using hsub x hx
        constructor
        · rw [← hm1, htw, List.takeWhile_append_dropWhile, ← hdw,
            List.takeWhile_append_dropWhile]
        · rw [← hr1, hdwn]
    · rw [if_neg hm] at h
      exact absurd h (by simp)

lemma scanBulletsAux_nil_str (fuel : Nat) (b : Bool) :
    scanBulletsAux fuel [] b = [] := by
  cases fuel <;> rfl

lemma scanBulletsAux_false (fuel : Nat) (u : Str) (hnl : ∀ c ∈ u, c ≠ '\n') :
    scanBulletsAux fuel u false = [] := by
  induction fuel generalizing u with
  | zero => rfl
  | succ f ih =>
    cases u with
    | nil => rfl
    | cons c t =>
      show (if false = true then _ else scanBulletsAux f t (c == '\n')) = ([] : List Str)
      rw [if_neg (by simp)]
      rw [show (c == '\n') = false by
        rw [beq_eq_false_iff_ne]
        exact hnl c (List.mem_cons_self c t)]
      exact ih t (fun x hx => hnl x (List.mem_cons_of_mem c hx))

lemma extract_bullets_of_none (u : Str) (hnl : ∀ c ∈ u, c ≠ '\n')
    (h : bulletMatch u = none) : extract_bullets u = [] := by
  unfold extract_bullets
  cases u with
  | nil => rfl
  | cons c t =>
    show (if true = true then
        (match bulletMatch (c :: t) with
          | some (m, rest) => m :: scanBulletsAux t.length rest (m.getLast? == some '\n')
          | none => scanBulletsAux t.length t (c == '\n'))
      else scanBulletsAux t.length t (c == '\n')) = []
    rw [if_pos rfl, h]
    rw [show (c == '\n') = false by
      rw [beq_eq_false_iff_ne]
      exact hnl c (List.mem_cons_self c t)]
    exact scanBulletsAux_false t.length t (fun x hx => hnl x (List.mem_cons_of_mem c hx))

lemma extract_bullets_of_some (u : Str) (hnl : ∀ c ∈ u, c ≠ '\n') (m rest : Str)
    (h : bulletMatch u = some (m, rest)) : extract_bullets u = [u] := by
  obtain ⟨hm, hr⟩ := bulletMatch_full u hnl m rest h
  rw [hm, hr] at h
  unfold extract_bullets
  cases hu : u with
  | nil =>
    rw [hu] at h
    exact absurd h (by simp [bulletMatch])
  | cons c t =>
    rw [hu] at h
    show (if true = true then
        (match bulletMatch (c :: t) with
          | some (m, rest) => m :: scanBulletsAux t.length rest (m.getLast? == some '\n')
          | none => scanBulletsAux t.length t (c == '\n'))
      else scanBulletsAux t.length t (c == '\n')) = [c :: t]
    rw [if_pos rfl, h]
    show (c :: t) :: scanBulletsAux t.length [] (List.getLast? (c :: t) == some '\n') =
      [c :: t]
    rw [scanBulletsAux_nil_str]

lemma splitlines_nobreak_single (u : Str) (hb : ∀ c ∈ u, isLineBreak c = false)
    (hne : u ≠ []) : splitlines u = [u] := by
  induction u using splitlines.induct with
  | case1 => exact absurd rfl hne
  | case2 c hc => exact absurd (hb c (by simp)) (by simp [hc])
  | case3 c hc => exact splitlines_one_nonbreak c (by simpa using hc)
  | case4 c d t hbk hcr ih => exact absurd (hb c (by simp)) (by simp [hbk])
  | case5 c d t hbk hcr ih => exact absurd (hb c (by simp)) (by simp [hbk])
  | case6 c d t hbk ih =>
    rw [splitlines_nonbreak_cons c d t (by simpa using hbk)]
    rw [ih (fun x hx => hb x (List.mem_cons_of_mem c hx)) (by simp)]
    rfl

/-- The section pattern matches at most once in `doc` (the scan after the
first match finds no further match). -/
def matchesAtMostOnce (name doc : Str) : Bool :=
  match searchFrom name doc with
  | none => true
  | some (i, hl, bl) => (searchFrom name (doc.drop (i + hl + bl))).isNone

lemma sectionPass_id (jd doc name : Str) (h0 : onlyNL doc = true)
    (h1 : matchesAtMostOnce name doc = true) :
    sectionPass (fun _ bs => bs) jd doc name = doc := by
  cases hs : searchFrom name doc with
  | none =>
    have hx : extract_section doc name = [] := by
      unfold extract_section
      rw [hs]
    unfold sectionPass
    rw [hx]
    rfl
  | some r =>
    obtain ⟨i, hl, bl⟩ := r
    have hx : extract_section doc name = (doc.drop (i + hl)).take bl := by
      unfold extract_section
      rw [hs]
    have hnl : ∀ c ∈ (doc.drop (i + hl)).take bl, c ≠ '\n' :=
      tryBody_no_nl _ _ (searchFrom_body name doc i hl bl hs)
    unfold sectionPass
    rw [hx]
    by_cases hstrip : (pyStrip ((doc.drop (i + hl)).take bl)).isEmpty = true
    · rw [if_pos hstrip]
    · rw [if_neg hstrip]
      set body := (doc.drop (i + hl)).take bl with hbody
      have hbne : body ≠ [] := by
        intro he
        rw [he] at hstrip
        exact hstrip rfl
      have hbreakfree : ∀ c ∈ body, isLineBreak c = false := by
        intro c hc
        have hmem : c ∈ doc := List.mem_of_mem_drop (List.mem_of_mem_take hc)
        cases hlb : isLineBreak c with
        | false => rfl
        | true =>
          exfalso
          have h3 := List.all_eq_true.mp h0 c hmem
          simp only [hlb, Bool.not_true, Bool.false_or] at h3
          exact hnl c hc (by simpa using h3)
      cases hbm : bulletMatch body with
      | none =>
        rw [extract_bullets_of_none body hnl hbm]
        rfl
      | some p =>
        obtain ⟨m, rest⟩ := p
        rw [extract_bullets_of_some body hnl m rest hbm]
        have hbul : isBulletLine body = true := by
          rw [← bulletMatch_isSome_isBulletLine, hbm]
          rfl
        have hsplit : splitlines body = [body] :=
          splitlines_nobreak_single body hbreakfree hbne
        have hrb : replace_bullets body [body] = body := by
          unfold replace_bullets replaceBulletLines
          rw [hsplit]
          simp [spliceLines, hbul, joinNL]
        show (if ([body] : List Str).isEmpty = true then doc
          else replace_section doc name (replace_bullets body [body])) = doc
        rw [if_neg (by simp), hrb]
        have honce : searchFrom name (doc.drop (i + hl + bl)) = none := by
          unfold matchesAtMostOnce at h1
          rw [hs] at h1
          exact Option.isNone_iff_eq_none.mp h1
        have hdocne : doc ≠ [] := searchFrom_ne_nil name doc _ hs
        obtain ⟨f, hf⟩ : ∃ f, doc.length = f + 1 := by
          cases doc with
          | nil => exact absurd rfl hdocne
          | cons a t => exact ⟨t.length, rfl⟩
        unfold replace_section
        rw [hf, reSubAux_some name body f doc i hl bl hs,
          reSubAux_none name body f _ honce]
        rw [hbody]
        rw [show doc.drop (i + hl + bl) = (doc.drop (i + hl)).drop bl by
          rw [List.drop_drop]]
        rw [List.append_assoc, List.take_append_drop, List.take_append_drop]

/-- The concrete scenario of the specification: a "WORK EXPERIENCE" heading,
two bullet lines, then an "EDUCATION" heading. -/
def c1doc : Str :=
  ("WORK EXPERIENCE\n- Built a web scraper in Python\n- Automated deployment pipeline\nEDUCATION\nBS in CS").toList

/-- Claim C1 — code bug: on the very document family the claim describes,
`extract_section` returns the empty string instead of the bullet lines
between the two headings.  The pattern lacks a DOTALL flag, so the lazy body
group cannot cross a newline and the regex cannot match any section whose
body spans more than one line. -/
theorem claim_C1 :
    extract_section c1doc (("Work Experience").toList) = [] ∧
    ("- Built a web scraper in Python\n- Automated deployment pipeline").toList ≠
      ([] : Str) := by
  constructor
  · decide
  · decide

/-- Two occurrences of the "Skills" heading, each with a one-line body
followed by a heading-like line. -/
def c3doc : Str := ("Skills\n- a\nAB\nSkills\n- b\nAB\n").toList

/-- Claim C3 counterexample: `replace_section` does not leave the later
occurrence of the heading unchanged — `re.sub` rewrites every match, so the
result differs from the one the claim predicts (only the first span
rewritten). -/
theorem claim_C3_counterexample :
    replace_section c3doc (("Skills").toList) (("NEW").toList) ≠
      ("Skills\nNEW\nAB\nSkills\n- b\nAB\n").toList := by
  decide

/-- Claim C3 (amended) — span agreement holds for the first match, and the
rewrite keeps the heading and everything outside the span intact, provided
the pattern matches at most once: `extract_section` returns exactly the body
span of the first match, and `replace_section` rebuilds the document as
prefix-plus-heading, new body, unchanged suffix.  Without that proviso
`re.sub` rewrites every later match as well (see the counterexample). -/
theorem claim_C3 (doc name nb : Str) (i hl bl : Nat)
    (h1 : searchFrom name doc = some (i, hl, bl))
    (h2 : searchFrom name (doc.drop (i + hl + bl)) = none) :
    extract_section doc name = (doc.drop (i + hl)).take bl ∧
    replace_section doc name nb =
      doc.take (i + hl) ++ nb ++ doc.drop (i + hl + bl) := by
  constructor
  · unfold extract_section
    rw [h1]
  · have hdocne : doc ≠ [] := searchFrom_ne_nil name doc _ h1
    obtain ⟨f, hf⟩ : ∃ f, doc.length = f + 1 := by
      cases doc with
      | nil => exact absurd rfl hdocne
      | cons a t => exact ⟨t.length, rfl⟩
    unfold replace_section
    rw [hf, reSubAux_some name nb f doc i hl bl h1, reSubAux_none name nb f _ h2]

/-- A document in which the "Skills" pattern matches exactly once. -/
def c3docW : Str := ("Skills\n- a\nAB\n").toList

theorem claim_C3_witness :
    extract_section c3docW (("Skills").toList) = (c3docW.drop (0 + 7)).take 3 ∧
    replace_section c3docW (("Skills").toList) (("NEW").toList) =
      c3docW.take (0 + 7) ++ ("NEW").toList ++ c3docW.drop (0 + 7 + 3) :=
  claim_C3 c3docW (("Skills").toList) (("NEW").toList) 0 7 3 (by decide) (by decide)

/-- Two matching "Work Experience" sections with different one-line bullet
bodies: the identity-rewriter pipeline copies the first body over the second
one, so the round trip fails. -/
def c4doc : Str :=
  ("Work Experience\n- a x\nAA BB\nWork Experience\n- c d\nAA BB\n").toList

/-- Claim C4 counterexample: with the identity rewriter the pipeline does not
return every document unchanged — on a document with two matching spans the
`re.sub` pass copies the first body over the second. -/
theorem claim_C4_counterexample :
    tailorText (fun _ bs => bs) c4doc (("jd").toList) ≠ c4doc := by
  decide

/-- Claim C4 (amended) — round trip with the identity rewriter: the pipeline
returns the document unchanged provided the only line-break character of the
document is the newline and each of the two targeted section patterns matches
at most once.  Without the at-most-once proviso the `re.sub` pass rewrites
later matches with the first match's body (see the counterexample); a body
holding a carriage return would be re-joined with a newline by the bullet
splicer. -/
theorem claim_C4 (doc jd : Str) (h0 : onlyNL doc = true)
    (h1 : matchesAtMostOnce (("Work Experience").toList) doc = true)
    (h2 : matchesAtMostOnce (("Projects").toList) doc = true) :
    tailorText (fun _ bs => bs) doc jd = doc := by
  show sectionPass (fun _ bs => bs) jd
      (sectionPass (fun _ bs => bs) jd doc (("Work Experience").toList))
      (("Projects").toList) = doc
  rw [sectionPass_id jd doc (("Work Experience").toList) h0 h1,
    sectionPass_id jd doc (("Projects").toList) h0 h2]

/-- A document with a single matching "Work Experience" section and no
"Projects" section. -/
def c4docW : Str := ("Work Experience\n- a x\nAA BB\n").toList

theorem claim_C4_witness :
    tailorText (fun _ bs => bs) c4docW (("a job").toList) = c4docW :=
  claim_C4 c4docW (("a job").toList) (by decide) (by decide) (by decide)
